import Mathlib

/-!
Verification of the `yt2org` transcript pipeline (`yt2org.py`).

The development embeds the pure core of the program over `List Char`:

* `chunk_text`      — the word-boundary segmenter (`chunk_text` in the source),
  a `while` loop rendered as fuel-based recursion (`chunkLoop`) where the fuel
  `text.length` is shown sufficient for every positive chunk size;
* `strip`           — Python's `str.strip()` on ASCII whitespace;
* `lastSpaceIdx`    — Python's `text.rfind(" ", 0, k)` (via `List.take`);
* `generate_summary`, `formatPartsFrom`, `generate_formatted_transcript`,
  `final_document`, `format_transcript_with_gemini`, `main_pipeline`
  — the two model passes, document assembly and the driver, with the
  external generative-model calls abstracted as oracle functions whose
  `none` outcome stands for a raised exception.

Theorems `C1_*` .. `C10_*` settle the specification claims about these
functions.
-/

set_option autoImplicit false

/-- The ASCII whitespace characters stripped by Python's `str.strip()` and
separating tokens for `str.split()`. -/
def isSpace (c : Char) : Bool :=
  c = ' ' || c = '\t' || c = '\n' || c = '\r' || c = '\x0b' || c = '\x0c'

/-- Index of the last `' '` in `l`, if any: the semantics of Python's
`l.rfind(" ")` (restricted windows are taken with `List.take` by callers). -/
def lastSpaceIdx : List Char → Option Nat
  | [] => none
  | c :: cs =>
    match lastSpaceIdx cs with
    | some i => some (i + 1)
    | none => if c = ' ' then some 0 else none

/-- Remove trailing whitespace (the right half of Python's `str.strip()`). -/
def rstrip : List Char → List Char
  | [] => []
  | c :: cs =>
    match rstrip cs with
    | [] => if isSpace c then [] else [c]
    | r => c :: r

/-- Python's `str.strip()`: remove leading and trailing whitespace. -/
def strip (l : List Char) : List Char := rstrip (l.dropWhile isSpace)

/-- The split index chosen by one iteration of the `chunk_text` loop:
`split_index = text.rfind(" ", 0, chunk_size)`, replaced by `chunk_size`
itself when no space occurs in the window (the hard cut). -/
def splitIndexOf (text : List Char) (size : Nat) : Nat :=
  match lastSpaceIdx (text.take size) with
  | some i => i
  | none => size

/-- The remaining text after one iteration of the `chunk_text` loop:
`text = text[split_index:].strip()`. -/
def nextRemaining (text : List Char) (size : Nat) : List Char :=
  strip (text.drop (splitIndexOf text size))

/-- The `while len(text) > chunk_size` loop of `chunk_text`, with explicit
fuel: each iteration emits `text[:split_index]` and continues on
`text[split_index:].strip()`; once `len(text) <= chunk_size` the final
non-empty remainder is emitted (`if text: chunks.append(text)`). -/
def chunkLoop : Nat → List Char → Nat → List (List Char)
  | 0, _, _ => []
  | fuel + 1, text, size =>
    if size < text.length then
      text.take (splitIndexOf text size) :: chunkLoop fuel (nextRemaining text size) size
    else if text.isEmpty then [] else [text]

/-- `chunk_text(text, chunk_size)` from the source. Fuel `text.length`
suffices: every iteration strictly shrinks the text when `0 < size`
(proved below, `chunkLoop_fuel_irrelevant`). -/
def chunk_text (text : List Char) (size : Nat) : List (List Char) :=
  chunkLoop text.length text size

/-- `true` iff no iteration of the `chunk_text` loop performs a hard cut,
i.e. every examined window `text[:chunk_size]` contains a space. -/
def noHardCutLoop : Nat → List Char → Nat → Bool
  | 0, _, _ => true
  | fuel + 1, text, size =>
    if size < text.length then
      match lastSpaceIdx (text.take size) with
      | some _ => noHardCutLoop fuel (nextRemaining text size) size
      | none => false
    else true

/-- No hard cut occurs anywhere in the run of `chunk_text text size`. -/
def noHardCut (text : List Char) (size : Nat) : Bool :=
  noHardCutLoop text.length text size

/-- Accumulator step for `tokens`: flush the (reversed) current word. -/
def flushTok (cur : List Char) : List (List Char) :=
  if cur.isEmpty then [] else [cur.reverse]

/-- Worker for `tokens`, carrying the current word reversed. -/
def tokensAux : List Char → List Char → List (List Char)
  | cur, [] => flushTok cur
  | cur, c :: cs =>
    if isSpace c then flushTok cur ++ tokensAux [] cs
    else tokensAux (c :: cur) cs

/-- The sequence of maximal non-whitespace runs of `l`: the token sequence
of Python's `l.split()`. -/
def tokens (l : List Char) : List (List Char) := tokensAux [] l

/-- `" ".join(parts)`: concatenation with single-space separators. -/
def joinSp : List (List Char) → List Char
  | [] => []
  | [c] => c
  | c :: d :: cs => c ++ ' ' :: joinSp (d :: cs)

/-- `generate_summary(model, transcript)`: one model call over the full
transcript; `summaryResponse` is the outcome of that call (`none` = the call
raised), in which case the fixed placeholder is returned instead. -/
def generate_summary (summaryResponse : Option (List Char))
    (_transcript : List Char) : List Char :=
  match summaryResponse with
  | some t => t
  | none => "Error generating summary.".toList

/-- The error placeholder appended by `generate_formatted_transcript` when
the model call for the (1-based) chunk `k` raises:
`f"\n[Error formatting chunk {k}]\n"`. -/
def chunkErrorPlaceholder (k : Nat) : List Char :=
  '\n' :: ("[Error formatting chunk " ++ Nat.repr k ++ "]").toList ++ ['\n']

/-- One iteration of the `for i, chunk in enumerate(chunks)` loop: the text
appended to `formatted_parts` for the 0-based chunk `i`. `response i chunk`
is the outcome of the model call on the prompt built from `chunk` (`none` =
the call raised). -/
def formatChunkResult (response : Nat → List Char → Option (List Char))
    (i : Nat) (chunk : List Char) : List Char :=
  match response i chunk with
  | some t => t
  | none => chunkErrorPlaceholder (i + 1)

/-- The `formatted_parts` list accumulated by the enumerate loop, starting
at 0-based index `i`. -/
def formatPartsFrom (response : Nat → List Char → Option (List Char)) :
    Nat → List (List Char) → List (List Char)
  | _, [] => []
  | i, c :: cs => formatChunkResult response i c :: formatPartsFrom response (i + 1) cs

/-- The full `formatted_parts` list of `generate_formatted_transcript`:
one entry per chunk of `chunk_text(transcript)` (default size 20000). -/
def formatted_parts (response : Nat → List Char → Option (List Char))
    (transcript : List Char) : List (List Char) :=
  formatPartsFrom response 0 (chunk_text transcript 20000)

/-- `"\n\n".join(parts)`. -/
def joinBlank : List (List Char) → List Char
  | [] => []
  | [c] => c
  | c :: d :: cs => c ++ '\n' :: '\n' :: joinBlank (d :: cs)

/-- `generate_formatted_transcript(model, transcript)`: chunk, transform each
chunk (placeholder on failure), join with blank lines. -/
def generate_formatted_transcript (response : Nat → List Char → Option (List Char))
    (transcript : List Char) : List Char :=
  joinBlank (formatted_parts response transcript)

/-- The `final_document` f-string of `format_transcript_with_gemini`. -/
def final_document (summary formatted_transcript : List Char) : List Char :=
  "* Comprehensive Summary\n".toList ++ summary ++
    "\n\n* Formatted Transcript\n".toList ++ formatted_transcript ++ ['\n']

/-- The summary-section heading line of the final document. -/
def summaryHeading : List Char := "* Comprehensive Summary".toList

/-- The formatted-transcript-section heading line of the final document. -/
def transcriptHeading : List Char := "* Formatted Transcript".toList

/-- `format_transcript_with_gemini(transcript)`: aborts (`sys.exit(1)`) when
the API key is absent from the environment, otherwise runs the summary pass
then the formatting pass and assembles the final document. `apiKey` models
`os.environ.get("GEMINI_API_KEY")`. -/
def format_transcript_with_gemini (apiKey : Option (List Char))
    (summaryResponse : Option (List Char))
    (response : Nat → List Char → Option (List Char))
    (transcript : List Char) : Except (List Char) (List Char) :=
  match apiKey with
  | none => Except.error "Error: The \x27GEMINI_API_KEY\x27 environment variable is not set.".toList
  | some _ =>
    Except.ok (final_document (generate_summary summaryResponse transcript)
      (generate_formatted_transcript response transcript))

/-- The diagnostic printed by `main` for an empty fetched transcript. -/
def emptyTranscriptError : List Char := "Error: Fetched transcript was empty.".toList

/-- The tail of `main` from the emptiness check onward: reject a transcript
that is empty after stripping (`if not raw_transcript.strip(): … sys.exit(1)`)
before any chunking or model call, otherwise produce the document to be
written. `Except.error` models `sys.exit(1)` after the diagnostic. -/
def main_pipeline (apiKey : Option (List Char))
    (summaryResponse : Option (List Char))
    (response : Nat → List Char → Option (List Char))
    (raw_transcript : List Char) : Except (List Char) (List Char) :=
  if strip raw_transcript = [] then Except.error emptyTranscriptError
  else format_transcript_with_gemini apiKey summaryResponse response raw_transcript

-- sanity checks on concrete runs of the segmenter
example : chunk_text "ab cd e".toList 4 = ["ab".toList, "cd e".toList] := by decide
example : chunk_text "aaaaa".toList 3 = ["aaa".toList, "aa".toList] := by decide
example : chunk_text " aaa".toList 2 = [[], "aa".toList, "a".toList] := by decide
example : tokens "  ab  cd ".toList = ["ab".toList, "cd".toList] := by decide
example : noHardCut "ab cd e".toList 4 = true := by decide
example : noHardCut " aaa".toList 2 = false := by decide

theorem dropWhile_length_le (p : Char → Bool) (l : List Char) :
    (l.dropWhile p).length ≤ l.length := by
  induction l with
  | nil => simp [List.dropWhile]
  | cons c cs ih =>
    simp only [List.dropWhile]
    split
    · exact Nat.le_trans ih (Nat.le_succ _)
    · exact Nat.le_refl _

theorem rstrip_length_le (l : List Char) : (rstrip l).length ≤ l.length := by
  induction l with
  | nil => simp [rstrip]
  | cons c cs ih =>
    simp only [rstrip]
    cases h : rstrip cs with
    | nil =>
      by_cases hc : isSpace c
      · simp [hc]
      · simp only [hc]
        simp
    | cons r rs =>
      rw [h] at ih
      simpa using Nat.succ_le_succ ih

theorem strip_length_le (l : List Char) : (strip l).length ≤ l.length :=
  Nat.le_trans (rstrip_length_le _) (dropWhile_length_le _ _)

theorem lastSpaceIdx_spec {l : List Char} {i : Nat} (h : lastSpaceIdx l = some i) :
    i < l.length ∧ l.get? i = some ' ' := by
  induction l generalizing i with
  | nil => simp [lastSpaceIdx] at h
  | cons c cs ih =>
    simp only [lastSpaceIdx] at h
    cases hc : lastSpaceIdx cs with
    | some j =>
      rw [hc] at h
      obtain ⟨hj, hg⟩ := ih hc
      cases h
      exact ⟨Nat.succ_lt_succ hj, hg⟩
    | none =>
      rw [hc] at h
      by_cases he : c = ' '
      · simp [he] at h
        subst he
        cases h
        simp
      · simp [he] at h

theorem splitIndexOf_le (text : List Char) (size : Nat) :
    splitIndexOf text size ≤ size := by
  unfold splitIndexOf
  cases h : lastSpaceIdx (text.take size) with
  | none => exact Nat.le_refl _
  | some i =>
    have := (lastSpaceIdx_spec h).1
    rw [List.length_take] at this
    exact Nat.le_of_lt (Nat.lt_of_lt_of_le this (min_le_left _ _))

theorem splitIndexOf_get {text : List Char} {size i : Nat}
    (h : lastSpaceIdx (text.take size) = some i) : text.get? i = some ' ' := by
  obtain ⟨hi, hg⟩ := lastSpaceIdx_spec h
  rw [List.length_take] at hi
  rwa [List.get?_take (Nat.lt_of_lt_of_le hi (min_le_left _ _))] at hg

/-- One loop iteration strictly shrinks the remaining text (for positive
chunk size), including the corner case of a space at window index 0 where the
emitted prefix is empty but `strip` removes the leading space. -/
theorem nextRemaining_length_lt {text : List Char} {size : Nat}
    (hsize : 0 < size) (hlen : size < text.length) :
    (nextRemaining text size).length < text.length := by
  have hpos : 0 < text.length := Nat.lt_of_le_of_lt (Nat.zero_le _) hlen
  unfold nextRemaining
  cases h : lastSpaceIdx (text.take size) with
  | none =>
    unfold splitIndexOf
    rw [h]
    calc (strip (text.drop size)).length
        ≤ (text.drop size).length := strip_length_le _
      _ = text.length - size := List.length_drop ..
      _ < text.length := Nat.sub_lt hpos hsize
  | some i =>
    have hsplit : splitIndexOf text size = i := by unfold splitIndexOf; rw [h]
    rw [hsplit]
    cases i with
    | zero =>
      have hget : text.get? 0 = some ' ' := splitIndexOf_get h
      obtain ⟨c, t, rfl⟩ : ∃ c t, text = c :: t := by
        cases text with
        | nil => simp at hget
        | cons c t => exact ⟨c, t, rfl⟩
      have hc : c = ' ' := by simpa using hget
      subst hc
      calc (strip ((' ' :: t).drop 0)).length
          = (rstrip (t.dropWhile isSpace)).length := by
            simp [strip, List.dropWhile, isSpace]
        _ ≤ t.length :=
            Nat.le_trans (rstrip_length_le _) (dropWhile_length_le _ _)
        _ < (' ' :: t).length := by simp [Nat.lt_succ_self]
    | succ j =>
      calc (strip (text.drop (j + 1))).length
          ≤ (text.drop (j + 1)).length := strip_length_le _
        _ = text.length - (j + 1) := List.length_drop ..
        _ < text.length := Nat.sub_lt hpos (Nat.succ_pos _)

theorem tokensAux_append_space {sp : Char} (hsp : isSpace sp = true) :
    ∀ (a cur b : List Char),
      tokensAux cur (a ++ sp :: b) = tokensAux cur a ++ tokensAux [] b := by
  intro a
  induction a with
  | nil =>
    intro cur b
    simp [tokensAux, hsp]
  | cons c a ih =>
    intro cur b
    by_cases hc : isSpace c
    · simp [tokensAux, hc, ih, List.append_assoc]
    · simp [tokensAux, hc, ih]

theorem tokensAux_all_space :
    ∀ s : List Char, (∀ c ∈ s, isSpace c = true) →
      ∀ cur, tokensAux cur s = flushTok cur := by
  intro s
  induction s with
  | nil => intro _ _; rfl
  | cons c s ih =>
    intro h cur
    have hc : isSpace c = true := h c (List.mem_cons_self ..)
    have hs := ih fun x hx => h x (List.mem_cons_of_mem _ hx)
    simp [tokensAux, hc, hs, flushTok]

theorem tokensAux_append_all_space (s : List Char)
    (hs : ∀ c ∈ s, isSpace c = true) :
    ∀ m cur, tokensAux cur (m ++ s) = tokensAux cur m := by
  intro m
  induction m with
  | nil =>
    intro cur
    exact tokensAux_all_space s hs cur
  | cons c m ih =>
    intro cur
    by_cases hc : isSpace c <;> simp [tokensAux, hc, ih]

theorem tokens_cons_space {c : Char} (hc : isSpace c = true) (l : List Char) :
    tokens (c :: l) = tokens l := by
  simp [tokens, tokensAux, hc, flushTok]

theorem tokens_prepend_all_space :
    ∀ s : List Char, (∀ c ∈ s, isSpace c = true) →
      ∀ l, tokens (s ++ l) = tokens l := by
  intro s
  induction s with
  | nil => intro _ _; rfl
  | cons c s ih =>
    intro h l
    have hc : isSpace c = true := h c (List.mem_cons_self ..)
    rw [List.cons_append, tokens_cons_space hc,
      ih (fun x hx => h x (List.mem_cons_of_mem _ hx)) l]

theorem rstrip_decomposition (l : List Char) :
    ∃ s, l = rstrip l ++ s ∧ ∀ c ∈ s, isSpace c = true := by
  induction l with
  | nil => exact ⟨[], rfl, by simp⟩
  | cons c cs ih =>
    obtain ⟨s, hdecomp, hsp⟩ := ih
    simp only [rstrip]
    cases h : rstrip cs with
    | nil =>
      rw [h] at hdecomp
      simp only [List.nil_append] at hdecomp
      by_cases hc : isSpace c
      · refine ⟨c :: cs, by simp [hc], ?_⟩
        intro x hx
        rcases List.mem_cons.mp hx with rfl | hx
        · exact hc
        · exact hsp x (hdecomp ▸ hx)
      · exact ⟨s, by simp [hc, ← hdecomp], by exact hsp⟩
    | cons r rs =>
      rw [h] at hdecomp
      exact ⟨s, by simp [hdecomp], hsp⟩

theorem tokens_rstrip (l : List Char) : tokens (rstrip l) = tokens l := by
  obtain ⟨s, hd, hs⟩ := rstrip_decomposition l
  conv_rhs => rw [hd]
  exact (tokensAux_append_all_space s hs (rstrip l) []).symm

theorem tokens_strip (l : List Char) : tokens (strip l) = tokens l := by
  unfold strip
  rw [tokens_rstrip]
  conv_rhs => rw [← List.takeWhile_append_dropWhile isSpace l]
  exact (tokens_prepend_all_space _ (fun _ hc => List.mem_takeWhile_imp hc) _).symm

theorem tokens_joinSp_cons (c : List Char) (l : List (List Char)) :
    tokens (joinSp (c :: l)) = tokens c ++ tokens (joinSp l) := by
  cases l with
  | nil => simp [joinSp, tokens, tokensAux, flushTok]
  | cons d l =>
    show tokens (c ++ ' ' :: joinSp (d :: l)) = _
    exact tokensAux_append_space (by decide) c [] _

/-- Any fuel at least `text.length` computes `chunk_text`: the loop of
`chunk_text` terminates within `text.length` iterations. -/
theorem chunkLoop_fuel_irrelevant {size : Nat} (hsize : 0 < size) :
    ∀ fuel text, text.length ≤ fuel →
      chunkLoop fuel text size = chunk_text text size := by
  intro fuel
  induction fuel using Nat.strong_induction_on with
  | _ fuel ih =>
    intro text hfuel
    match fuel with
    | 0 =>
      have : text = [] := List.eq_nil_of_length_eq_zero (Nat.le_zero.mp hfuel)
      subst this
      rfl
    | fuel + 1 =>
      unfold chunk_text
      by_cases hlen : size < text.length
      · have hlt := nextRemaining_length_lt hsize hlen
        have h1 : chunkLoop (fuel + 1) text size =
            text.take (splitIndexOf text size)
              :: chunkLoop fuel (nextRemaining text size) size := by
          simp [chunkLoop, hlen]
        have hlen1 : 0 < text.length := Nat.lt_of_le_of_lt (Nat.zero_le _) hlen
        obtain ⟨m, hm⟩ : ∃ m, text.length = m + 1 :=
          ⟨text.length - 1, (Nat.succ_pred_eq_of_pos hlen1).symm⟩
        have h2 : chunkLoop text.length text size =
            text.take (splitIndexOf text size)
              :: chunkLoop m (nextRemaining text size) size := by
          rw [hm]; simp [chunkLoop, hlen]
        have hrec1 : chunkLoop fuel (nextRemaining text size) size =
            chunk_text (nextRemaining text size) size := by
          apply ih fuel (Nat.lt_succ_self _)
          exact Nat.le_of_lt_succ (Nat.lt_of_lt_of_le hlt hfuel)
        have hrec2 : chunkLoop m (nextRemaining text size) size =
            chunk_text (nextRemaining text size) size := by
          apply ih m (by omega)
          omega
        rw [h1, h2, hrec1, hrec2]
      · have hbase : chunkLoop (fuel + 1) text size =
            if text.isEmpty then [] else [text] := by
          simp [chunkLoop, hlen]
        rw [hbase]
        cases text with
        | nil => rfl
        | cons c t =>
          show _ = chunkLoop (t.length + 1) (c :: t) size
          have hlen' : ¬ size < t.length + 1 := by simpa using hlen
          simp [chunkLoop, hlen']

theorem chunkLoop_tokens {size : Nat} (hsize : 0 < size) :
    ∀ fuel text, text.length ≤ fuel → noHardCutLoop fuel text size = true →
      tokens (joinSp (chunkLoop fuel text size)) = tokens text := by
  intro fuel
  induction fuel with
  | zero =>
    intro text hlen _
    have : text = [] := List.length_eq_zero.mp (Nat.le_zero.mp hlen)
    subst this
    rfl
  | succ fuel ih =>
    intro text hlen hnhc
    by_cases hl : size < text.length
    · have hcl : chunkLoop (fuel + 1) text size =
          text.take (splitIndexOf text size)
            :: chunkLoop fuel (nextRemaining text size) size := by
        simp [chunkLoop, hl]
      cases hsp : lastSpaceIdx (text.take size) with
      | none =>
        exfalso
        simp [noHardCutLoop, hl, hsp] at hnhc
      | some i =>
        have hnext : noHardCutLoop fuel (nextRemaining text size) size = true := by
          simpa [noHardCutLoop, hl, hsp] using hnhc
        have hsplit : splitIndexOf text size = i := by simp [splitIndexOf, hsp]
        have hget : text.get? i = some ' ' := splitIndexOf_get hsp
        have hlen' : (nextRemaining text size).length ≤ fuel :=
          Nat.le_of_lt_succ (Nat.lt_of_lt_of_le (nextRemaining_length_lt hsize hl) hlen)
        rw [hcl, tokens_joinSp_cons, ih (nextRemaining text size) hlen' hnext]
        unfold nextRemaining
        rw [tokens_strip, hsplit]
        obtain ⟨hi, hgi⟩ := List.get?_eq_some.mp hget
        have hdrop : text.drop i = ' ' :: text.drop (i + 1) := by
          rw [List.drop_eq_get_cons hi, hgi]
        rw [hdrop, tokens_cons_space (by decide)]
        conv_rhs => rw [← List.take_append_drop i text, hdrop]
        exact (tokensAux_append_space (by decide) _ [] _).symm
    · have hbase : chunkLoop (fuel + 1) text size =
          if text.isEmpty then [] else [text] := by
        simp [chunkLoop, hl]
      rw [hbase]
      cases text with
      | nil => rfl
      | cons c t => simp [joinSp]

/-- C1. For every input text and positive `maxSize`, if no hard cut occurs
during the run (every examined window of `maxSize` characters contains a
space, `noHardCut`), then joining the chunks of `chunk_text` with single
spaces preserves the sequence of non-whitespace tokens of the input. -/
theorem C1_content_preservation (text : List Char) (size : Nat)
    (hsize : 0 < size) (hnhc : noHardCut text size = true) :
    tokens (joinSp (chunk_text text size)) = tokens text :=
  chunkLoop_tokens hsize text.length text (Nat.le_refl _) hnhc

/-- Witness for C1 at the concrete input `"ab cd e"` with `maxSize = 4`. -/
theorem C1_content_preservation_witness :
    0 < 4 ∧ noHardCut "ab cd e".toList 4 = true ∧
      tokens (joinSp (chunk_text "ab cd e".toList 4)) = tokens "ab cd e".toList :=
  ⟨by decide, by decide, C1_content_preservation _ _ (by decide) (by decide)⟩

theorem chunkLoop_length_le {size : Nat} (hsize : 0 < size) :
    ∀ fuel text, text.length ≤ fuel →
      ∀ c ∈ chunkLoop fuel text size, c.length ≤ size := by
  intro fuel
  induction fuel with
  | zero => intro text _ c hc; simp [chunkLoop] at hc
  | succ fuel ih =>
    intro text hlen c hc
    by_cases hl : size < text.length
    · simp only [chunkLoop, if_pos hl, List.mem_cons] at hc
      rcases hc with rfl | hc
      · rw [List.length_take]
        exact Nat.le_trans (min_le_left ..) (splitIndexOf_le text size)
      · have hlen' : (nextRemaining text size).length ≤ fuel :=
          Nat.le_of_lt_succ (Nat.lt_of_lt_of_le (nextRemaining_length_lt hsize hl) hlen)
        exact ih (nextRemaining text size) hlen' c hc
    · simp only [chunkLoop, if_neg hl] at hc
      cases text with
      | nil => simp at hc
      | cons a t =>
        simp at hc
        subst hc
        exact Nat.le_of_not_lt hl

/-- C9. Unconditional size bound: every chunk produced by `chunk_text` has
length at most `chunk_size` (a whitespace-free run longer than `chunk_size`
is hard-cut at `chunk_size`, never emitted oversized). -/
theorem C9_chunk_size_bound (text : List Char) (size : Nat) (hsize : 0 < size) :
    ∀ c ∈ chunk_text text size, c.length ≤ size :=
  chunkLoop_length_le hsize text.length text (Nat.le_refl _)

/-- Witness for C9 on a whitespace-free run longer than the chunk size. -/
theorem C9_chunk_size_bound_witness :
    0 < 3 ∧ ∀ c ∈ chunk_text "aaaaa".toList 3, c.length ≤ 3 :=
  ⟨by decide, C9_chunk_size_bound "aaaaa".toList 3 (by decide)⟩

/-- C4 counterexample: with `maxSize = 3`, the input `"aaaaa"` is a single
whitespace-free run longer than `maxSize`, yet it is NOT emitted as one
oversized chunk: `chunk_text` hard-cuts it into `["aaa", "aa"]`. -/
theorem C4_oversized_run_counterexample :
    chunk_text "aaaaa".toList 3 = ["aaa".toList, "aa".toList] ∧
      "aaaaa".toList ∉ chunk_text "aaaaa".toList 3 := by
  constructor <;> decide

/-- C4 (amended): no chunk ever exceeds `maxSize`; when a window of `maxSize`
characters contains no space, the loop splits exactly at `maxSize`, emitting
`text[:maxSize]` and continuing on the stripped remainder — an over-long
whitespace-free run becomes several chunks of length at most `maxSize`. -/
theorem C4_hard_cut_bound (text : List Char) (size : Nat) (hsize : 0 < size) :
    (∀ c ∈ chunk_text text size, c.length ≤ size) ∧
      (size < text.length → lastSpaceIdx (text.take size) = none →
        chunk_text text size =
          text.take size :: chunk_text (strip (text.drop size)) size) := by
  refine ⟨chunkLoop_length_le hsize text.length text (Nat.le_refl _), ?_⟩
  intro hl hsp
  have hsplit : splitIndexOf text size = size := by simp [splitIndexOf, hsp]
  have hnext_eq : nextRemaining text size = strip (text.drop size) := by
    unfold nextRemaining
    rw [hsplit]
  have hpos : 0 < text.length := Nat.lt_of_le_of_lt (Nat.zero_le _) hl
  obtain ⟨m, hm⟩ : ∃ m, text.length = m + 1 := ⟨text.length - 1, by omega⟩
  have hstep : chunk_text text size =
      text.take (splitIndexOf text size)
        :: chunkLoop m (nextRemaining text size) size := by
    unfold chunk_text
    rw [hm]
    simp [chunkLoop, hl]
  rw [hstep, hsplit, hnext_eq, ← hnext_eq,
    chunkLoop_fuel_irrelevant hsize m (nextRemaining text size)
      (by have := nextRemaining_length_lt hsize hl; omega), hnext_eq]

theorem dropWhile_head_not {p : Char → Bool} :
    ∀ {l : List Char} {c : Char}, (l.dropWhile p).head? = some c → p c = false := by
  intro l
  induction l with
  | nil => intro c h; simp [List.dropWhile] at h
  | cons a t ih =>
    intro c h
    by_cases ha : p a
    · rw [List.dropWhile_cons_of_pos ha] at h
      exact ih h
    · rw [List.dropWhile_cons_of_neg ha] at h
      simp at h
      subst h
      exact Bool.eq_false_iff.mpr ha

theorem rstrip_head? :
    ∀ {m : List Char} {c : Char}, (rstrip m).head? = some c → m.head? = some c := by
  intro m
  induction m with
  | nil => intro c h; simp [rstrip] at h
  | cons a t ih =>
    intro c h
    simp only [rstrip] at h
    cases ht : rstrip t with
    | nil =>
      rw [ht] at h
      by_cases ha : isSpace a
      · simp [ha] at h
      · simp [ha] at h
        simp [h]
    | cons r rs =>
      rw [ht] at h
      simp at h
      simp [h]

theorem strip_head_not {l : List Char} {c : Char}
    (h : (strip l).head? = some c) : isSpace c = false :=
  dropWhile_head_not (rstrip_head? h)

theorem chunkLoop_nonempty {size : Nat} (hsize : 0 < size) :
    ∀ fuel text, text.length ≤ fuel → text.head? ≠ some ' ' →
      ∀ ch ∈ chunkLoop fuel text size, ch ≠ [] := by
  intro fuel
  induction fuel with
  | zero => intro text _ _ ch hch; simp [chunkLoop] at hch
  | succ fuel ih =>
    intro text hlen hhead ch hch
    by_cases hl : size < text.length
    · simp only [chunkLoop, if_pos hl, List.mem_cons] at hch
      rcases hch with rfl | hch
      · have hs : splitIndexOf text size ≠ 0 := by
          intro h0
          cases hsp : lastSpaceIdx (text.take size) with
          | none =>
            have : splitIndexOf text size = size := by simp [splitIndexOf, hsp]
            omega
          | some i =>
            have hi : splitIndexOf text size = i := by simp [splitIndexOf, hsp]
            rw [hi] at h0
            subst h0
            have hg := splitIndexOf_get hsp
            rw [List.get?_zero] at hg
            exact hhead hg
        have hpos : 0 < text.length := by omega
        obtain ⟨a, t, rfl⟩ : ∃ a t, text = a :: t := by
          cases text with
          | nil => simp at hpos
          | cons a t => exact ⟨a, t, rfl⟩
        obtain ⟨m, hm⟩ : ∃ m, splitIndexOf (a :: t) size = m + 1 :=
          ⟨splitIndexOf (a :: t) size - 1, by omega⟩
        rw [hm]
        simp
      · have hlen' : (nextRemaining text size).length ≤ fuel :=
          Nat.le_of_lt_succ (Nat.lt_of_lt_of_le (nextRemaining_length_lt hsize hl) hlen)
        have hhead' : (nextRemaining text size).head? ≠ some ' ' := by
          intro h
          have := strip_head_not (l := text.drop (splitIndexOf text size)) h
          simp [isSpace] at this
        exact ih (nextRemaining text size) hlen' hhead' ch hch
    · simp only [chunkLoop, if_neg hl] at hch
      cases text with
      | nil => simp at hch
      | cons a t =>
        simp at hch
        subst hch
        simp

/-- C2 counterexample: for the input `" aaa"` (a leading space that is the
only space in the first `maxSize` characters) and `maxSize = 2`, the first
emitted chunk is `text[:0] = ""`: an EMPTY chunk. -/
theorem C2_nonempty_counterexample :
    0 < 2 ∧ [] ∈ chunk_text " aaa".toList 2 := by
  constructor <;> decide

/-- C2 (amended): every chunk produced by `chunk_text` is non-empty provided
the input does not begin with a space character (an empty chunk arises only
when the input's first character is a space and it is the last space of the
first window). -/
theorem C2_chunks_nonempty (text : List Char) (size : Nat) (hsize : 0 < size)
    (hhead : text.head? ≠ some ' ') :
    ∀ ch ∈ chunk_text text size, ch ≠ [] :=
  chunkLoop_nonempty hsize text.length text (Nat.le_refl _) hhead

/-- Witness for C2 (amended) at the concrete input `"ab c"`, `maxSize = 2`. -/
theorem C2_chunks_nonempty_witness :
    (0 < 2 ∧ ("ab c".toList).head? ≠ some ' ') ∧
      ∀ ch ∈ chunk_text "ab c".toList 2, ch ≠ [] :=
  ⟨⟨by decide, by decide⟩,
    C2_chunks_nonempty "ab c".toList 2 (by decide) (by decide)⟩

/-- C8 counterexample: the empty chunk produced from `" aaa"` with
`maxSize = 2` does not re-segment to itself: `chunk_text "" 2 = []`, not
`[""]`. -/
theorem C8_idempotent_counterexample :
    [] ∈ chunk_text " aaa".toList 2 ∧ chunk_text ([] : List Char) 2 ≠ [[]] := by
  constructor <;> decide

/-- C8 (amended): re-segmenting any NON-EMPTY chunk produced by `chunk_text`
with the same `maxSize` returns the one-element list holding that chunk
unchanged. -/
theorem C8_resegment_fixed (text c : List Char) (size : Nat) (hsize : 0 < size)
    (hc : c ∈ chunk_text text size) (hne : c ≠ []) :
    chunk_text c size = [c] := by
  have hlen : c.length ≤ size :=
    chunkLoop_length_le hsize text.length text (Nat.le_refl _) c hc
  have hnl : ¬ size < c.length := Nat.not_lt.mpr hlen
  unfold chunk_text
  cases c with
  | nil => exact absurd rfl hne
  | cons a t =>
    have hnl' : ¬ size < t.length + 1 := by simpa using hnl
    show chunkLoop (t.length + 1) (a :: t) size = _
    simp [chunkLoop, hnl']

/-- Witness for C8 (amended): the chunk `"a"` of `chunk_text "a b" 2`. -/
theorem C8_resegment_fixed_witness :
    (0 < 2 ∧ "a".toList ∈ chunk_text "a b".toList 2 ∧ "a".toList ≠ []) ∧
      chunk_text "a".toList 2 = ["a".toList] :=
  ⟨⟨by decide, by decide, by decide⟩,
    C8_resegment_fixed "a b".toList "a".toList 2 (by decide) (by decide) (by decide)⟩

/-- C10. Termination of the `chunk_text` loop for every positive
`chunk_size`: each iteration strictly shrinks the remaining text (also when
the last space of the window sits at index 0: the emitted prefix is empty but
`strip` removes at least the leading space), hence fuel `text.length`
suffices and any larger fuel computes the same result. -/
theorem C10_termination (text : List Char) (size : Nat) (hsize : 0 < size) :
    (size < text.length → (nextRemaining text size).length < text.length) ∧
      ∀ fuel, text.length ≤ fuel → chunkLoop fuel text size = chunk_text text size :=
  ⟨fun hl => nextRemaining_length_lt hsize hl,
    fun fuel hf => chunkLoop_fuel_irrelevant hsize fuel text hf⟩

/-- Witness for C10 at `" aaa"`, `maxSize = 2`: the first iteration hits the
space-at-index-0 case and still shrinks the text. -/
theorem C10_termination_witness :
    0 < 2 ∧ (nextRemaining " aaa".toList 2).length < (" aaa".toList).length ∧
      chunkLoop 100 " aaa".toList 2 = chunk_text " aaa".toList 2 :=
  ⟨by decide,
    (C10_termination " aaa".toList 2 (by decide)).1 (by decide),
    (C10_termination " aaa".toList 2 (by decide)).2 100 (by decide)⟩

theorem formatPartsFrom_length (response : Nat → List Char → Option (List Char)) :
    ∀ (l : List (List Char)) (i : Nat),
      (formatPartsFrom response i l).length = l.length := by
  intro l
  induction l with
  | nil => intro i; rfl
  | cons c cs ih => intro i; simp [formatPartsFrom, ih]

theorem formatPartsFrom_get? (response : Nat → List Char → Option (List Char)) :
    ∀ (l : List (List Char)) (i k : Nat), k < l.length →
      (formatPartsFrom response i l).get? k =
        some (formatChunkResult response (i + k) (l.getD k [])) := by
  intro l
  induction l with
  | nil => intro i k hk; simp at hk
  | cons c cs ih =>
    intro i k hk
    cases k with
    | zero => simp [formatPartsFrom]
    | succ k =>
      have hrec := ih (i + 1) k (Nat.lt_of_succ_lt_succ hk)
      have hadd : i + 1 + k = i + (k + 1) := by omega
      rw [hadd] at hrec
      simpa [formatPartsFrom] using hrec

/-- C3 counterexample: when the model call fails on the single chunk of the
transcript `"hi"`, the emitted unit is the newline-wrapped string
`"\n[Error formatting chunk 1]\n"` and not the bare
`"[Error formatting chunk 1]"` that the claim states. -/
theorem C3_placeholder_counterexample :
    formatted_parts (fun _ _ => none) "hi".toList =
        ["\n[Error formatting chunk 1]\n".toList] ∧
      "\n[Error formatting chunk 1]\n".toList ≠
        "[Error formatting chunk 1]".toList := by
  constructor <;> decide

/-- C3 (amended): the Formatting Pass produces exactly one unit per input
chunk, joined in original order by a blank line; a failure at chunk `k` never
prevents processing of the other chunks, and unit `k` is then
`"\n[Error formatting chunk k]\n"` (`k` the 1-based ordinal, the placeholder
wrapped in single newlines); a successful call contributes its own text. -/
theorem C3_formatting_pass (response : Nat → List Char → Option (List Char))
    (transcript : List Char) :
    (formatted_parts response transcript).length =
        (chunk_text transcript 20000).length ∧
      generate_formatted_transcript response transcript =
        joinBlank (formatted_parts response transcript) ∧
      ∀ k, k < (chunk_text transcript 20000).length →
        (response k ((chunk_text transcript 20000).getD k []) = none →
          (formatted_parts response transcript).getD k [] =
            chunkErrorPlaceholder (k + 1)) ∧
        ∀ t, response k ((chunk_text transcript 20000).getD k []) = some t →
          (formatted_parts response transcript).getD k [] = t := by
  refine ⟨formatPartsFrom_length .., rfl, ?_⟩
  intro k hk
  have hget : (formatted_parts response transcript).getD k [] =
      formatChunkResult response k ((chunk_text transcript 20000).getD k []) := by
    unfold formatted_parts
    rw [List.getD, formatPartsFrom_get? response _ 0 k hk]
    simp
  constructor
  · intro hnone
    rw [hget]
    unfold formatChunkResult
    rw [hnone]
  · intro t ht
    rw [hget]
    unfold formatChunkResult
    rw [ht]

/-- Witness for C3 (amended): one chunk, failing model call. -/
theorem C3_formatting_pass_witness :
    ((formatted_parts (fun _ _ => none) "hi".toList).length =
        (chunk_text "hi".toList 20000).length) ∧
      (formatted_parts (fun _ _ => none) "hi".toList).getD 0 [] =
        chunkErrorPlaceholder 1 :=
  ⟨(C3_formatting_pass (fun _ _ => none) "hi".toList).1,
    ((C3_formatting_pass (fun _ _ => none) "hi".toList).2.2 0 (by decide)).1 rfl⟩

/-- C5. Summary-call failure: `generate_summary` returns the fixed
placeholder string instead of raising, and the pipeline still completes,
assembling the full document with that placeholder in the summary section
alongside the formatted-transcript content. -/
theorem C5_summary_failure_recovery (key transcript : List Char)
    (response : Nat → List Char → Option (List Char)) :
    generate_summary none transcript = "Error generating summary.".toList ∧
      format_transcript_with_gemini (some key) none response transcript =
        Except.ok (final_document "Error generating summary.".toList
          (generate_formatted_transcript response transcript)) :=
  ⟨rfl, rfl⟩

/-- Witness for C5 at a concrete key, transcript and failing chunk oracle. -/
theorem C5_summary_failure_recovery_witness :
    generate_summary none "hi".toList = "Error generating summary.".toList ∧
      format_transcript_with_gemini (some "k".toList) none
          (fun _ _ => none) "hi".toList =
        Except.ok (final_document "Error generating summary.".toList
          (generate_formatted_transcript (fun _ _ => none) "hi".toList)) :=
  C5_summary_failure_recovery "k".toList "hi".toList (fun _ _ => none)

theorem final_document_decomp (summary formatted : List Char) :
    final_document summary formatted =
      summaryHeading ++ '\n' :: (summary ++ '\n' :: '\n' ::
        (transcriptHeading ++ '\n' :: (formatted ++ ['\n']))) := by
  unfold final_document
  rw [show ("* Comprehensive Summary\n".toList : List Char) =
        summaryHeading ++ ['\n'] from by decide,
    show ("\n\n* Formatted Transcript\n".toList : List Char) =
        '\n' :: '\n' :: (transcriptHeading ++ ['\n']) from by decide]
  simp

/-- C6. The assembled document always begins with the summary heading; the
formatted-transcript heading occurs strictly after it, with the summary
content between the two headings and the formatted content after the second
heading — whatever the two section texts are. -/
theorem C6_document_structure (summary formatted : List Char) :
    (final_document summary formatted).take summaryHeading.length =
        summaryHeading ∧
      final_document summary formatted =
        summaryHeading ++ '\n' :: (summary ++ '\n' :: '\n' ::
          (transcriptHeading ++ '\n' :: (formatted ++ ['\n']))) := by
  have hd := final_document_decomp summary formatted
  refine ⟨?_, hd⟩
  rw [hd, List.take_append_eq_append_take, List.take_length, Nat.sub_self]
  simp

/-- Witness for C6 at concrete section texts (an error placeholder as the
summary, ordinary text as the transcript). -/
theorem C6_document_structure_witness :
    (final_document "Error generating summary.".toList "F".toList).take
        summaryHeading.length = summaryHeading ∧
      final_document "Error generating summary.".toList "F".toList =
        summaryHeading ++ '\n' :: ("Error generating summary.".toList ++
          '\n' :: '\n' :: (transcriptHeading ++ '\n' :: ("F".toList ++ ['\n']))) :=
  C6_document_structure "Error generating summary.".toList "F".toList

/-- C7. An empty or whitespace-only fetched transcript makes the pipeline
stop with the empty-transcript diagnostic; the outcome is the same whatever
the API key, summary oracle and chunk oracle (no chunking result or model
response is consulted), and no document is produced. -/
theorem C7_empty_transcript_rejected (raw_transcript : List Char)
    (h : strip raw_transcript = []) :
    ∀ apiKey summaryResponse response,
      main_pipeline apiKey summaryResponse response raw_transcript =
        Except.error emptyTranscriptError := by
  intro apiKey summaryResponse response
  simp [main_pipeline, h]

/-- Witness for C7 at the whitespace-only transcript `"  "`. -/
theorem C7_empty_transcript_rejected_witness :
    strip "  ".toList = [] ∧
      main_pipeline none none (fun _ _ => none) "  ".toList =
        Except.error emptyTranscriptError :=
  ⟨by decide,
    C7_empty_transcript_rejected "  ".toList (by decide) none none (fun _ _ => none)⟩

/-- Witness for C4 (amended) at `"aaaaa"`, `maxSize = 3`: the hard-cut branch
is exercised and the bound holds. -/
theorem C4_hard_cut_bound_witness :
    (0 < 3 ∧ 3 < ("aaaaa".toList).length ∧
        lastSpaceIdx (("aaaaa".toList).take 3) = none) ∧
      (∀ c ∈ chunk_text "aaaaa".toList 3, c.length ≤ 3) ∧
      chunk_text "aaaaa".toList 3 =
        ("aaaaa".toList).take 3 :: chunk_text (strip (("aaaaa".toList).drop 3)) 3 :=
  ⟨⟨by decide, by decide, by decide⟩,
    (C4_hard_cut_bound "aaaaa".toList 3 (by decide)).1,
    (C4_hard_cut_bound "aaaaa".toList 3 (by decide)).2 (by decide) (by decide)⟩
